import Mathlib

/-
  Verification development for the context-and-memory subsystem
  (token budgeting, summarization, session compaction, pipeline memory,
  retrieval).  Source text is modelled as `List Char`; JavaScript string
  primitives (`slice`, `lastIndexOf`, `trim`, first-occurrence `replace`
  with `$`-substitution in the replacement) are embedded with their JS
  semantics, including negative-index normalization.  JS `number`
  arithmetic on integers is modelled exactly over `Nat`/`Int`.  Fractional
  arithmetic is handled two ways.  Where a comparison against a fractional
  constant has an integer rewrite that coincides with the IEEE computation
  on every reachable input, the integer rewrite is used: `x > m * 0.5` as
  `2 * x > m` (0.5 is exactly representable); `x > m * 0.8` as
  `5 * x > 4 * m`, sound because 0.8's nearest double lies above 4/5 while
  on the reachable range (m a multiple of 4, |m| bounded by the adapter
  budgets) no integer falls between `4m/5` and the rounded product;
  `Math.floor((m - r) * 0.3)` as `(3 * (m - r)).fdiv 10`.  Where the IEEE
  result genuinely differs from the exact rational one — the 0.7 paragraph
  test, whose nearest double lies below 7/10, and the
  `length * (budget / tokens) * 0.9` truncation chain — the computation is
  carried out in an exact model of IEEE binary64 round-to-nearest-even
  arithmetic (`ratToDouble`, `dmul`, `ddiv`, `dlt`, `dfloor` below).
-/

set_option maxRecDepth 100000

/-! ### JS string primitives -/

/-- JS `String.prototype.slice(0, e)`: a negative end index counts from the
end of the string; the result is always a prefix of the input. -/
def jsSlice0 (s : List Char) (e : Int) : List Char :=
  if e < 0 then s.take ((s.length : Int) + e).toNat else s.take e.toNat

/-- JS `String.prototype.slice(start)`: a negative start index counts from
the end of the string. -/
def jsSliceFrom (s : List Char) (start : Int) : List Char :=
  if start < 0 then s.drop ((s.length : Int) + start).toNat else s.drop start.toNat

/-- Whitespace for JS `trim` (the ASCII cases: space, tab, LF, VT, FF, CR). -/
def isJsWs (c : Char) : Bool :=
  c == ' ' || c == '\t' || c == '\n' || c == Char.ofNat 11 || c == Char.ofNat 12 || c == '\r'

/-- JS `String.prototype.trim`: strip leading and trailing whitespace. -/
def jsTrim (s : List Char) : List Char :=
  ((s.dropWhile isJsWs).reverse.dropWhile isJsWs).reverse

/-- Scan for the last occurrence of `pat` starting at a position `≤ limit`,
carrying the best match found so far (`best`); used to model JS
`lastIndexOf`. -/
def lastOccAux (pat : List Char) (limit : Nat) : List Char → Nat → Int → Int
  | [], pos, best => if pos ≤ limit ∧ pat = [] then (pos : Int) else best
  | c :: rest, pos, best =>
      lastOccAux pat limit rest (pos + 1)
        (if pos ≤ limit ∧ pat <+: (c :: rest) then (pos : Int) else best)

/-- JS `String.prototype.lastIndexOf(pat, limit)`: the greatest start
position `≤ limit` of an occurrence of `pat`, or `-1`.  For the
single-argument form, pass `s.length` as `limit`. -/
def jsLastIndexOf (s pat : List Char) (limit : Nat) : Int :=
  lastOccAux pat limit s 0 (-1)

/-- The backtick character (written via its code point). -/
def backtickChar : Char := Char.ofNat 96

/-- The apostrophe character (written via its code point). -/
def quoteChar : Char := Char.ofNat 39

/-- JS `GetSubstitution` for a string pattern (no capture groups): in the
replacement string, `$$` yields a literal `$`, `$&` the matched substring,
`$` + backtick the part of the subject before the match, `$` + apostrophe
the part after the match; any other `$` is literal (a string pattern has
no numbered or named capture groups). -/
def jsSubstAux (matched pre post : List Char) : List Char → List Char
  | [] => []
  | c :: rest =>
      if c = '$' then
        match rest with
        | [] => ['$']
        | d :: rest2 =>
            if d = '$' then '$' :: jsSubstAux matched pre post rest2
            else if d = '&' then matched ++ jsSubstAux matched pre post rest2
            else if d = backtickChar then pre ++ jsSubstAux matched pre post rest2
            else if d = quoteChar then post ++ jsSubstAux matched pre post rest2
            else '$' :: d :: jsSubstAux matched pre post rest2
      else c :: jsSubstAux matched pre post rest

/-- Helper for `jsReplaceFirst`: replace the first occurrence of `pat`
(nonempty) by the `$`-substituted replacement; `pre` accumulates the part
of the subject already scanned (reversed), which the before-match
substitution needs. -/
def replFirstAux (pat repl : List Char) : List Char → List Char → List Char
  | _, [] => []
  | pre, c :: rest =>
      if pat <+: (c :: rest) then
        jsSubstAux pat pre.reverse ((c :: rest).drop pat.length) repl ++
          (c :: rest).drop pat.length
      else c :: replFirstAux pat repl (c :: pre) rest

/-- JS `String.prototype.replace(pat, repl)` with a string pattern: only
the first occurrence is replaced, and the replacement undergoes
`$`-substitution. -/
def jsReplaceFirst (s pat repl : List Char) : List Char :=
  if pat = [] then jsSubstAux pat [] s repl ++ s else replFirstAux pat repl [] s

/-! ### IEEE binary64 model

Doubles are represented as pairs `(m, e) : Int × Int` with value
`m * 2^e`, where `m` is `0` or satisfies `2^52 ≤ |m| < 2^53`.  Rounding is
round-to-nearest, ties-to-even — IEEE 754 binary64 on the normal range.
Overflow and subnormals lie far outside the magnitudes these programs
produce; a zero divisor (JS `Infinity`) is unreachable at the guarded call
sites and maps to 0. -/

/-- Bit length of a natural number, by fuel-bounded structural recursion
(the fuel `n` bounds the `log₂ n + 1` halving steps and keeps the
definition kernel-computable). -/
def bitLenAux : Nat → Nat → Nat
  | 0, _ => 0
  | f + 1, n => if n = 0 then 0 else bitLenAux f (n / 2) + 1

/-- Bit length: `0` for `0`, otherwise `⌊log₂ n⌋ + 1`. -/
def bitLen (n : Nat) : Nat := bitLenAux n n

/-- Round `p + rem/den` (with `0 ≤ rem < den`) to the nearest integer,
ties to even. -/
def roundHalfEven (p rem den : Nat) : Nat :=
  if 2 * rem < den then p
  else if den < 2 * rem then p + 1
  else if p % 2 = 0 then p else p + 1

/-- Integer part, remainder and effective denominator of
`(num / den) / 2^s`. -/
def scaledDivMod (num den : Nat) (s : Int) : Nat × Nat × Nat :=
  if 0 ≤ s then
    (num / (den * 2 ^ s.toNat), num % (den * 2 ^ s.toNat), den * 2 ^ s.toNat)
  else
    (num * 2 ^ (-s).toNat / den, num * 2 ^ (-s).toNat % den, den)

/-- Round `num/den` at scale `s` to a mantissa, renormalizing when
rounding carries into `2^53`. -/
def fitAt (num den : Nat) (s : Int) : Int × Int :=
  let t := scaledDivMod num den s
  let m1 := roundHalfEven t.1 t.2.1 t.2.2
  if m1 = 2 ^ 53 then ((2 : Int) ^ 52, s + 1) else ((m1 : Int), s)

/-- The IEEE double nearest to `num/den` (round-to-nearest-even): the
scale estimate from the bit lengths puts the integer part in
`[2^52, 2^54)`, with one adjustment when it reaches `2^53`. -/
def ratToDouble (num den : Nat) : Int × Int :=
  if num = 0 ∨ den = 0 then (0, 0)
  else
    let s := (bitLen num : Int) - bitLen den - 53
    if (scaledDivMod num den s).1 < 2 ^ 53 then fitAt num den s
    else fitAt num den (s + 1)

/-- The double nearest to a natural number (exact below `2^53`). -/
def natToDouble (n : Nat) : Int × Int := ratToDouble n 1

/-- The double nearest to an integer. -/
def intToDouble (i : Int) : Int × Int :=
  if i < 0 then (-(ratToDouble i.natAbs 1).1, (ratToDouble i.natAbs 1).2)
  else ratToDouble i.natAbs 1

/-- IEEE double multiplication: round the exact product. -/
def dmul (a b : Int × Int) : Int × Int :=
  if a.1 = 0 ∨ b.1 = 0 then (0, 0)
  else
    (if (a.1 < 0) = (b.1 < 0) then (ratToDouble (a.1.natAbs * b.1.natAbs) 1).1
     else -(ratToDouble (a.1.natAbs * b.1.natAbs) 1).1,
     (ratToDouble (a.1.natAbs * b.1.natAbs) 1).2 + a.2 + b.2)

/-- IEEE double division: round the exact quotient. -/
def ddiv (a b : Int × Int) : Int × Int :=
  if a.1 = 0 ∨ b.1 = 0 then (0, 0)
  else
    (if (a.1 < 0) = (b.1 < 0) then (ratToDouble a.1.natAbs b.1.natAbs).1
     else -(ratToDouble a.1.natAbs b.1.natAbs).1,
     (ratToDouble a.1.natAbs b.1.natAbs).2 + a.2 - b.2)

/-- Exact strict comparison of two doubles' values. -/
def dlt (a b : Int × Int) : Bool :=
  a.1 * 2 ^ (a.2 - min a.2 b.2).toNat < b.1 * 2 ^ (b.2 - min a.2 b.2).toNat

/-- `Math.floor` of a double. -/
def dfloor (a : Int × Int) : Int :=
  if 0 ≤ a.2 then a.1 * 2 ^ a.2.toNat else Int.fdiv a.1 (2 ^ (-a.2).toNat)

/-- The double literal `0.7` (strictly below 7/10). -/
def d07 : Int × Int := ratToDouble 7 10

/-- The double literal `0.9`. -/
def d09 : Int × Int := ratToDouble 9 10

/-! ### TokenBudget (src/context/tokens.ts) -/

structure TokenConfig where
  maxTokens : Nat
  reserveTokens : Nat
  chunkSize : Nat
deriving DecidableEq

/-- `estimateTokens`: `0` for the empty string, else `ceil(length / 4)`
(`CHARS_PER_TOKEN = 4`). -/
def estimateTokens (s : List Char) : Nat :=
  if s.length = 0 then 0 else (s.length + 3) / 4

/-- `ADAPTER_LIMITS` lookup with the JS `|| ADAPTER_LIMITS.ollama`
fallback. -/
def getTokenConfig (agent : String) : TokenConfig :=
  if agent = "claude" then ⟨100000, 4000, 8000⟩
  else if agent = "gemini" then ⟨128000, 4000, 8000⟩
  else if agent = "codex" then ⟨32000, 2000, 4000⟩
  else ⟨8000, 1000, 2000⟩

/-- `getAvailableTokens`: `maxTokens - reserveTokens - usedTokens`; may be
negative, hence `Int`. -/
def getAvailableTokens (agent : String) (usedTokens : Nat) : Int :=
  ((getTokenConfig agent).maxTokens : Int) - (getTokenConfig agent).reserveTokens - usedTokens

/-- The marker `truncateForAgent` appends: `'\n\n[...truncated]'`. -/
def truncMarker : List Char := "\n\n[...truncated]".toList

/-- `truncateForAgent`: fit `text` into the agent's available budget,
preferring a late paragraph boundary (trailing 30%), else a late sentence
boundary (trailing 20%), else a hard cut, then append the marker. -/
def truncateForAgent (text : List Char) (agent : String) (usedTokens : Nat) : List Char :=
  let available := getAvailableTokens agent usedTokens
  let maxChars := available * 4
  if (text.length : Int) ≤ maxChars then text
  else
    let truncated := jsSlice0 text maxChars
    let lastParagraph := jsLastIndexOf truncated ['\n', '\n'] truncated.length
    let truncated2 :=
      -- `lastParagraph > maxChars * 0.7` in IEEE doubles (0.7's double lies
      -- below 7/10, so the exact-rational test would differ, e.g. at
      -- maxChars = 180, lastParagraph = 126)
      if dlt (dmul (intToDouble maxChars) d07) (intToDouble lastParagraph) then
        jsSlice0 truncated lastParagraph
      else
        let lastSentence := jsLastIndexOf truncated ['.', ' '] truncated.length
        -- `lastSentence > maxChars * 0.8`, exactly: `5 * lastSentence > 4 * maxChars`
        -- (0.8's double lies above 4/5; on the reachable range — maxChars a
        -- multiple of 4, at most 4·(maxTokens − reserve) — no integer falls
        -- between `4·maxChars/5` and the rounded product, so the integer
        -- test coincides with the IEEE one)
        if 5 * lastSentence > 4 * maxChars then
          jsSlice0 truncated (lastSentence + 1)
        else truncated
    truncated2 ++ truncMarker

/-- Break-point selection of one `splitIntoChunks` iteration: prefer the
last paragraph break at position `≤ chunkChars` when it lies past half the
window (`paragraphBreak > chunkChars * 0.5`, exactly
`2 * paragraphBreak > chunkChars`), else likewise a sentence break, else a
hard cut at `chunkChars`. -/
def chunkBreak (cc : Nat) (rem : List Char) : Int :=
  if 2 * jsLastIndexOf rem ['\n', '\n'] cc > (cc : Int) then
    jsLastIndexOf rem ['\n', '\n'] cc + 2
  else if 2 * jsLastIndexOf rem ['.', ' '] cc > (cc : Int) then
    jsLastIndexOf rem ['.', ' '] cc + 2
  else (cc : Int)

/-- The chunk emitted by one `splitIntoChunks` iteration:
`remaining.slice(0, breakPoint).trim()`. -/
def chunkStep (cc : Nat) (rem : List Char) : List Char :=
  jsTrim (jsSlice0 rem (chunkBreak cc rem))

/-- `dropWhile` never lengthens a list. -/
def dropWhile_length_le (p : Char → Bool) (l : List Char) :
    (l.dropWhile p).length ≤ l.length :=
  (List.dropWhile_suffix p).sublist.length_le

/-- `jsTrim` never lengthens a string. -/
def jsTrim_length_le (s : List Char) : (jsTrim s).length ≤ s.length := by
  unfold jsTrim
  calc ((s.dropWhile isJsWs).reverse.dropWhile isJsWs).reverse.length
      = ((s.dropWhile isJsWs).reverse.dropWhile isJsWs).length := List.length_reverse _
    _ ≤ (s.dropWhile isJsWs).reverse.length := dropWhile_length_le _ _
    _ = (s.dropWhile isJsWs).length := List.length_reverse _
    _ ≤ s.length := dropWhile_length_le _ _

/-- The break point of a chunk iteration is at least 1 when the chunk
window is nonempty, so the loop consumes at least one character. -/
def chunkBreakPos (cc : Nat) (hcc : 0 < cc) (rem : List Char) : 1 ≤ chunkBreak cc rem := by
  unfold chunkBreak
  split
  · next h => omega
  · split
    · next h => omega
    · omega

/-- One `splitIntoChunks` iteration strictly shrinks the remaining text. -/
def chunkShrink (rem : List Char) (bp : Int) (hbp : 1 ≤ bp) (hne : ¬ rem.length = 0) :
    (jsTrim (jsSliceFrom rem bp)).length < rem.length := by
  have h1 : (jsTrim (jsSliceFrom rem bp)).length ≤ (jsSliceFrom rem bp).length :=
    jsTrim_length_le _
  have h2 : (jsSliceFrom rem bp).length ≤ rem.length - 1 := by
    unfold jsSliceFrom
    rw [if_neg (by omega)]
    rw [List.length_drop]
    omega
  omega

/-- The `while` loop of `splitIntoChunks`: emit trimmed chunks until the
remaining text fits in one chunk window. -/
def chunkLoop (cc : Nat) (hcc : 0 < cc) (rem : List Char) : List (List Char) :=
  if h0 : rem.length = 0 then []
  else if h1 : rem.length ≤ cc then [rem]
  else chunkStep cc rem :: chunkLoop cc hcc (jsTrim (jsSliceFrom rem (chunkBreak cc rem)))
termination_by rem.length
decreasing_by
  exact chunkShrink rem (chunkBreak cc rem) (chunkBreakPos cc hcc rem) h0

/-- Every adapter config (fallback included) has a positive chunk size. -/
def getTokenConfigChunkPos (agent : String) : 0 < (getTokenConfig agent).chunkSize := by
  unfold getTokenConfig
  repeat' split
  all_goals decide

/-- `splitIntoChunks`: return the text whole if it fits one chunk window
(`chunkSize * 4` characters), else run the chunking loop. -/
def splitIntoChunks (text : List Char) (agent : String) : List (List Char) :=
  if text.length ≤ (getTokenConfig agent).chunkSize * 4 then [text]
  else
    chunkLoop ((getTokenConfig agent).chunkSize * 4)
      (Nat.mul_pos (getTokenConfigChunkPos agent) (by decide)) text

/-- Agent-name constants used at concrete inputs. -/
def agentOllama : String := "ollama"

def agentClaude : String := "claude"

/-- Input exhibiting a chunk one token over the chunk budget: 8000 `'a'`s,
then a sentence break exactly at position `chunkChars = 8000`, then more
text. -/
def chunkCounterText : List Char := List.replicate 8000 'a' ++ ['.', ' ', 'b']

/-! ### Compressor (src/context/summarizer.ts)

The external Ollama call is modelled by an explicit `outcome` parameter:
`some resp` is a successful service response (`response.response`),
`none` is any service failure (unavailable, error, timeout), which the
source catches and turns into a local truncation — no error ever
propagates to the caller. -/

/-- A code fence: three backticks. -/
def codeFence : List Char := [backtickChar, backtickChar, backtickChar]

/-- First index at which a code fence starts, if any; models the lazy
search for the closing fence of `/(three backticks)[\s\S]*?(three
backticks)/`. -/
def firstFenceIdx : List Char → Option Nat
  | [] => none
  | c :: rest =>
      if codeFence <+: (c :: rest) then some 0
      else (firstFenceIdx rest).map (· + 1)

/-- The placeholder for extracted code block `k`: `'[CODE_BLOCK_' + k + ']'`. -/
def codePlaceholder (k : Nat) : List Char :=
  "[CODE_BLOCK_".toList ++ (Nat.repr k).toList ++ [']']

/-- Scanner for `extractCodeBlocks`: at each position, a fenced block
(lazy: up to the first closing fence) is replaced by its positional
placeholder; positions with an unclosed fence advance one character, like
the regex engine.  Returns `(textWithoutCode, code)`.  Every step consumes
at least one character, so a fuel of the text's length makes the recursion
structural (the fuel never runs out before the text does). -/
def extractAux : Nat → List Char → Nat → List Char × List (List Char)
  | 0, _, _ => ([], [])
  | _ + 1, [], _ => ([], [])
  | fuel + 1, c :: rest, k =>
      if codeFence <+: (c :: rest) then
        match firstFenceIdx ((c :: rest).drop 3) with
        | some j =>
            let blockLen := 3 + j + 3
            let res := extractAux fuel ((c :: rest).drop blockLen) (k + 1)
            (codePlaceholder k ++ res.1, (c :: rest).take blockLen :: res.2)
        | none =>
            let res := extractAux fuel rest k
            (c :: res.1, res.2)
      else
        let res := extractAux fuel rest k
        (c :: res.1, res.2)

/-- `extractCodeBlocks`: returns `(textWithoutCode, code)`. -/
def extractCodeBlocks (text : List Char) : List Char × List (List Char) :=
  extractAux text.length text 0

/-- `restoreCodeBlocks` loop: `code.forEach((block, i) => result =
result.replace('[CODE_BLOCK_' + i + ']', block))`. -/
def restoreAux (s : List Char) : List (List Char) → Nat → List Char
  | [], _ => s
  | b :: rest, i => restoreAux (jsReplaceFirst s (codePlaceholder i) b) rest (i + 1)

/-- `restoreCodeBlocks`. -/
def restoreCodeBlocks (summary : List Char) (code : List (List Char)) : List Char :=
  restoreAux summary code 0

/-- `CompressionResult` (`SummaryResult` in the source).  `compressionRatio`
is a JS number computed by division; it is modelled in `ℚ` (where division
by zero yields 0, while JS would yield `Infinity` — see the C9 theorem). -/
structure SummaryResult where
  summary : List Char
  originalTokens : Nat
  summaryTokens : Nat
  compressionRatio : ℚ
deriving DecidableEq

/-- `options.maxLength || DEFAULT_MAX_LENGTH`: JS `||` also replaces `0`. -/
def resolveMaxLength : Option Nat → Nat
  | some m => if m = 0 then 500 else m
  | none => 500

/-- `options.preserveCode ?? true`: nullish coalescing keeps `false`. -/
def resolvePreserveCode : Option Bool → Bool
  | some b => b
  | none => true

/-- The fallback tag appended on service failure. -/
def failTag : List Char := "\n\n[...summarization failed, truncated]".toList

/-- `summarize` (the spec's `compress`).  The prompt construction is
omitted: it does not influence any returned field, only the request to the
external service, which is abstracted by `outcome`. -/
def summarize (text : List Char) (maxLengthOpt : Option Nat) (preserveCodeOpt : Option Bool)
    (outcome : Option (List Char)) : SummaryResult :=
  let maxLength := resolveMaxLength maxLengthOpt
  let preserveCode := resolvePreserveCode preserveCodeOpt
  let originalTokens := estimateTokens text
  if originalTokens ≤ maxLength then
    ⟨text, originalTokens, originalTokens, 1⟩
  else
    let codeBlocks := if preserveCode then (extractCodeBlocks text).2 else []
    match outcome with
    | some resp =>
        let trimmed := jsTrim resp
        let summary :=
          if preserveCode ∧ 0 < codeBlocks.length then restoreCodeBlocks trimmed codeBlocks
          else trimmed
        let summaryTokens := estimateTokens summary
        ⟨summary, originalTokens, summaryTokens, (originalTokens : ℚ) / (summaryTokens : ℚ)⟩
    | none =>
        let truncated := text.take (maxLength * 4) ++ failTag
        ⟨truncated, originalTokens, estimateTokens truncated, 1⟩

/-! ### SessionStore (src/memory/sessions.ts) -/

inductive Role where
  | user
  | assistant
  | system
deriving DecidableEq

/-- Rendering of a role for the `role: content` fold input. -/
def roleString : Role → List Char
  | Role.user => "user".toList
  | Role.assistant => "assistant".toList
  | Role.system => "system".toList

structure Message where
  role : Role
  content : List Char
  tokens : Nat
  timestamp : Nat
deriving DecidableEq

structure AgentSession where
  id : String
  agent : String
  messages : List Message
  summary : List Char
  summaryTokens : Nat
  totalTokens : Nat
  messageCount : Nat
  createdAt : Nat
  updatedAt : Nat
deriving DecidableEq

/-- `Required<SessionConfig>`. -/
structure SessionConfig where
  maxTokens : Nat
  keepRecentMessages : Nat
  autoSave : Bool
deriving DecidableEq

/-- `compressSession`.  The summarizer is abstracted by `svc`: `some s` is
the string produced by `summarizeIfNeeded` when the summarizer is
available and succeeds; `none` covers both "unavailable" and "threw", in
which case the source hard-truncates the fold input to
`targetSummaryTokens * 4` characters (a JS `slice`, so a negative target
trims from the end).  `Date.now()` is passed as `now`.
`targetSummaryTokens = Math.floor((maxTokens - recentTokens) * 0.3)` is
modelled exactly as `(3 * (maxTokens - recentTokens)).fdiv 10`. -/
def compressSession (session : AgentSession) (cfg : SessionConfig) (svc : Option (List Char))
    (now : Nat) : AgentSession :=
  let splitIndex := session.messages.length - cfg.keepRecentMessages
  let oldMessages := session.messages.take splitIndex
  let recentMessages := session.messages.drop splitIndex
  if oldMessages.length = 0 then session
  else
    let oldText := List.intercalate ['\n', '\n']
      (oldMessages.map (fun m => roleString m.role ++ [':', ' '] ++ m.content))
    let textToSummarize :=
      if session.summary ≠ [] then
        "Previous summary:\n".toList ++ session.summary ++
          "\n\nNew messages:\n".toList ++ oldText
      else oldText
    let recentTokens := (recentMessages.map Message.tokens).sum
    let targetSummaryTokens : Int := (3 * ((cfg.maxTokens : Int) - recentTokens)).fdiv 10
    let newSummary :=
      match svc with
      | some s => s
      | none => jsSlice0 textToSummarize (targetSummaryTokens * 4)
    let summaryTokens := estimateTokens newSummary
    ⟨session.id, session.agent, recentMessages, newSummary, summaryTokens,
      summaryTokens + recentTokens, session.messageCount, session.createdAt, now⟩

/-! ### PipelineMemory (src/context/memory.ts) -/

structure StepOutput where
  raw : List Char
  summary : List Char
  tokens : Nat
  summaryTokens : Nat
  keyPoints : List (List Char)
  timestamp : Nat
deriving DecidableEq

/-- Modelled from the spec: the executor's `StepResult` type is imported
from `../executor/types`, which is not among the modelled sources; its
fields follow the properties enumerated in spec §4.4 (`content`, `status`,
`error`, `model`, `duration`). -/
structure StepResult where
  stepId : String
  content : Option (List Char)
  status : String
  error : Option (List Char)
  model : Option (List Char)
  duration : Option Nat
deriving DecidableEq

structure MemoryConfig where
  targetAgent : String
  summarizeThreshold : Nat
  maxInjectionTokens : Nat
  preferSummaries : Bool
deriving DecidableEq

/-- `MemoryContext`; the JS `Record<string, _>` objects are modelled as
association lists. -/
structure MemoryContext where
  initial : List (String × List Char)
  steps : List (String × StepResult)
  outputs : List (String × List Char)
  prompt : List Char
  memory : List (String × StepOutput)
  config : MemoryConfig

/-- `getStepOutputForBudget` (the spec's `budgetedStepOutput`).
`tokenBudget < mem.summaryTokens * 0.5` is modelled exactly as
`2 * tokenBudget < mem.summaryTokens` (0.5 is exactly representable), and
`Math.floor(mem.summary.length * (tokenBudget / mem.summaryTokens) * 0.9)`
is computed in the IEEE binary64 model — the double chain differs from the
exact rational floor at reachable inputs (e.g. an 88-character, 22-token
summary under a 15-token budget keeps 53 characters, not 54).  The tier-3
branch is only reached when `summaryTokens > tokenBudget ≥ 0`, so the
divisor is positive. -/
def getStepOutputForBudget (ctx : MemoryContext) (stepId : String) (tokenBudget : Nat) :
    List Char :=
  match ctx.memory.lookup stepId with
  | none =>
      match ctx.steps.lookup stepId with
      | some st => st.content.getD []
      | none => []
  | some mem =>
      let keyPointsStr :=
        if 0 < mem.keyPoints.length then
          ['-', ' '] ++ List.intercalate ['\n', '-', ' '] mem.keyPoints
        else []
      let keyPointsTokens := estimateTokens keyPointsStr
      if 0 < keyPointsTokens ∧ 2 * tokenBudget < mem.summaryTokens ∧
          keyPointsTokens ≤ tokenBudget then
        keyPointsStr
      else if mem.summaryTokens ≤ tokenBudget then
        mem.summary
      else
        let targetChars := dfloor (dmul (dmul (natToDouble mem.summary.length)
          (ddiv (natToDouble tokenBudget) (natToDouble mem.summaryTokens))) d09)
        jsSlice0 mem.summary targetChars ++ truncMarker

/-- The three-tier selection as the (amended) spec words it: key points
when non-empty, fitting the budget, and the budget under half the
summary's token count; else the full summary when it fits; else the
summary hard-truncated to `summary.length × (tokenBudget / summaryTokens)
× 0.9` characters — the products and quotient computed in IEEE doubles and
floored, as the program does — with the truncation marker appended. -/
def budgetedStepOutputSpec (mem : StepOutput) (tokenBudget : Nat) : List Char :=
  let keyPointsStr :=
    if 0 < mem.keyPoints.length then
      ['-', ' '] ++ List.intercalate ['\n', '-', ' '] mem.keyPoints
    else []
  if 0 < estimateTokens keyPointsStr ∧ 2 * tokenBudget < mem.summaryTokens ∧
      estimateTokens keyPointsStr ≤ tokenBudget then
    keyPointsStr
  else if mem.summaryTokens ≤ tokenBudget then
    mem.summary
  else
    jsSlice0 mem.summary (dfloor (dmul (dmul (natToDouble mem.summary.length)
      (ddiv (natToDouble tokenBudget) (natToDouble mem.summaryTokens))) d09)) ++
      truncMarker

/-! ### Retriever (src/memory/retriever.ts)

The store is abstracted by two functions: `searchFn typ limit` is what
`search(query, {type, limit})` returned (the query is baked in), and
`recentFn typ limit` is what `getRecent` returned.  Quantifying over them
covers every query and every store content, including vector-search
fallback behaviour. -/

inductive MemoryType where
  | conversation
  | code
  | decision
  | pattern
  | context
deriving DecidableEq

inductive EmbeddingProvider where
  | ollama
  | fts5
deriving DecidableEq

inductive SearchMethod where
  | vector
  | fts5
  | recency
deriving DecidableEq

structure MemoryItem where
  id : Option Nat
  type : MemoryType
  content : List Char
  metadata : Option (List Char)
  createdAt : Option Nat
  updatedAt : Option Nat
deriving DecidableEq

structure SearchResult where
  item : MemoryItem
  score : ℚ
deriving DecidableEq

structure RetrievalOptions where
  limit : Option Nat
  types : Option (List MemoryType)
  includeRecent : Option Bool
  minScore : Option ℚ
  maxTokens : Option Nat

structure RetrievalResult where
  items : List MemoryItem
  totalTokens : Nat
  searchMethod : SearchMethod

/-- The retriever's local token estimator (`Math.ceil(length / 4)`, no
empty-string branch; it coincides with `estimateTokens`). -/
def retrieverEstimateTokens (text : List Char) : Nat :=
  (text.length + 3) / 4

/-- The token-limit loop of `retrieve`: greedily accept items in order,
stopping at the first item that would push the running total past
`maxT`. -/
def packAux (maxT : Nat) : List SearchResult → Nat → List MemoryItem × Nat
  | [], tot => ([], tot)
  | r :: rest, tot =>
      if maxT < tot + retrieverEstimateTokens r.item.content then ([], tot)
      else
        (r.item :: (packAux maxT rest (tot + retrieverEstimateTokens r.item.content)).1,
          (packAux maxT rest (tot + retrieverEstimateTokens r.item.content)).2)

/-- Candidate list of `retrieve` before the token-limit loop: per-type
search fan-out (with `Math.ceil(limit / types.length)` each), min-score
filter, stable sort by descending score, recency backfill tagged with
score `0.05`, then truncation to `limit`. -/
def rankedCandidates (searchFn : Option MemoryType → Nat → List SearchResult)
    (recentFn : Option MemoryType → Nat → List MemoryItem)
    (options : RetrievalOptions) : List SearchResult :=
  let limit := options.limit.getD 10
  let minScore := options.minScore.getD (1 / 10)
  let includeRecent := options.includeRecent.getD true
  let results :=
    match options.types with
    | some ts =>
        if 0 < ts.length then
          ts.flatMap (fun t => searchFn (some t) ((limit + ts.length - 1) / ts.length))
        else searchFn none limit
    | none => searchFn none limit
  let filtered :=
    (results.filter (fun r => decide (minScore ≤ r.score))).mergeSort
      (fun a b => decide (b.score ≤ a.score))
  let backfilled :=
    if includeRecent ∧ filtered.length < limit then
      let typeOpt :=
        match options.types with
        | some (t :: _) => some t
        | _ => none
      let recentItems := recentFn typeOpt (limit - filtered.length)
      let existingIds := filtered.map (fun r => r.item.id)
      filtered ++
        (recentItems.filter (fun it => !(existingIds.contains it.id))).map
          (fun it => ⟨it, 1 / 20⟩)
    else filtered
  backfilled.take limit

/-- `retrieve`: the reported `searchMethod` is fixed up front from the
cached provider flag; items are then packed under the token ceiling. -/
def retrieve (provider : EmbeddingProvider)
    (searchFn : Option MemoryType → Nat → List SearchResult)
    (recentFn : Option MemoryType → Nat → List MemoryItem)
    (options : RetrievalOptions) : RetrievalResult :=
  let maxTokens := options.maxTokens.getD 4000
  let searchMethod :=
    if provider = EmbeddingProvider.ollama then SearchMethod.vector else SearchMethod.fts5
  let packed := packAux maxTokens (rankedCandidates searchFn recentFn options) 0
  ⟨packed.1, packed.2, searchMethod⟩

/-! ### Concrete inputs used by counterexamples and witnesses -/

/-- A text that is one fenced code block, above a `maxLength` of 1 token. -/
def c2text : List Char := codeFence ++ "abc".toList ++ codeFence

/-- A service response that drops the placeholder. -/
def c2respLost : List Char := "ok".toList

/-- A service response that keeps the placeholder. -/
def c2respKept : List Char := "x [CODE_BLOCK_0] y".toList

/-- An 8-character text (2 estimated tokens), above a `maxLength` of 1. -/
def text8 : List Char := "aaaaaaaa".toList

/-- The step id used by the pipeline-memory examples. -/
def stepOne : String := "s1"

/-- A memory entry whose summary is 100 characters (25 estimated tokens)
with no key points. -/
def memC6 : StepOutput :=
  ⟨List.replicate 100 'a', List.replicate 100 'a', 25, 25, [], 0⟩

/-- A memory context recording `memC6` under `stepOne`. -/
def ctxC6 : MemoryContext :=
  ⟨[], [], [], [], [(stepOne, memC6)], ⟨agentOllama, 2000, 4000, true⟩⟩

/-- A 4-character, 4-token message. -/
def msgA : Message := ⟨Role.user, "aaaa".toList, 4, 0⟩

/-- A session holding 15 stored messages whose `messageCount` field (the
never-reset lifetime counter) is 2. -/
def sessionC3 : AgentSession := ⟨"sid", agentOllama, List.replicate 15 msgA, [], 0, 60, 2, 0, 0⟩

/-- `keepRecentMessages = 10`, `maxTokens = 100`. -/
def cfgC3 : SessionConfig := ⟨100, 10, true⟩

/-- A session with a single stored message (compaction no-op case). -/
def sessionSmall : AgentSession := ⟨"sid2", agentOllama, [msgA], [], 0, 4, 1, 0, 0⟩

/-- A 4-character service response (1 estimated token). -/
def respB : List Char := "bbbb".toList

/-! ### Helper lemmas -/

/-- Ceiling division by 4 over `ℚ` equals the `(n + 3) / 4` Nat formula. -/
theorem ceil_quarter (n : ℕ) : ⌈(n : ℚ) / 4⌉ = (((n + 3) / 4 : ℕ) : ℤ) := by
  have hm := Nat.div_add_mod (n + 3) 4
  have hr : (n + 3) % 4 < 4 := Nat.mod_lt _ (by norm_num)
  have ha : ((n + 3) / 4) * 4 ≤ n + 3 := by omega
  have hb : n ≤ ((n + 3) / 4) * 4 := by omega
  rw [Int.ceil_eq_iff]
  constructor
  · rw [lt_div_iff₀ (by norm_num : (0 : ℚ) < 4)]
    have ha' : ((((n + 3) / 4 : ℕ) : ℤ) : ℚ) * 4 ≤ (n : ℚ) + 3 := by exact_mod_cast ha
    linarith
  · rw [div_le_iff₀ (by norm_num : (0 : ℚ) < 4)]
    exact_mod_cast hb

/-- `jsSlice0` always returns a prefix-sized piece: never longer than the
input. -/
theorem jsSlice0_length_le (s : List Char) (e : Int) : (jsSlice0 s e).length ≤ s.length := by
  unfold jsSlice0
  split <;> (rw [List.length_take]; omega)

/-- For a nonnegative end index, `jsSlice0` is `take`, so the length is
bounded by the index. -/
theorem jsSlice0_length_le_toNat (s : List Char) (e : Int) (he : 0 ≤ e) :
    (jsSlice0 s e).length ≤ e.toNat := by
  unfold jsSlice0
  rw [if_neg (by omega)]
  rw [List.length_take]
  omega

/-- Appending text and the truncation marker to a bounded prefix stays
within `aN + 4` tokens. -/
theorem estimate_append_marker_le (l : List Char) (aN : Nat) (h : l.length ≤ 4 * aN) :
    estimateTokens (l ++ truncMarker) ≤ aN + 4 := by
  unfold estimateTokens
  have hm : truncMarker.length = 16 := by decide
  rw [List.length_append, hm]
  split <;> omega

/-! ### C1: truncateForAgent budget -/

/-- C1 (amended): when `available(target, used)` is nonnegative,
`truncateForAgent` never exceeds `available` by more than the token cost of
one `'[...truncated]'` marker; and whenever the input's length fits the
character budget `available * 4`, the output is the input exactly (this
half holds for every budget).  For negative budgets the bound fails — see
the counterexample. -/
theorem truncateForAgent_budget (text : List Char) (agent : String) (used : Nat) :
    (0 ≤ getAvailableTokens agent used →
      (estimateTokens (truncateForAgent text agent used) : ℤ) ≤
        getAvailableTokens agent used + estimateTokens truncMarker) ∧
    ((text.length : ℤ) ≤ getAvailableTokens agent used * 4 →
      truncateForAgent text agent used = text) := by
  have hmark : estimateTokens truncMarker = 4 := by decide
  constructor
  · intro ha
    simp only [truncateForAgent]
    split
    · next hfit =>
      rw [hmark]
      unfold estimateTokens
      split <;> omega
    · next hfit =>
      rw [hmark]
      have htr : (jsSlice0 text (getAvailableTokens agent used * 4)).length ≤
          (getAvailableTokens agent used * 4).toNat :=
        jsSlice0_length_le_toNat _ _ (by omega)
      have hbound : ∀ u : List Char, u.length ≤ (getAvailableTokens agent used * 4).toNat →
          (estimateTokens (u ++ truncMarker) : ℤ) ≤ getAvailableTokens agent used + 4 := by
        intro u hu
        have h2 : estimateTokens (u ++ truncMarker) ≤ (getAvailableTokens agent used).toNat + 4 :=
          estimate_append_marker_le u _ (by omega)
        omega
      split
      · exact hbound _ (le_trans (jsSlice0_length_le _ _) htr)
      · split
        · exact hbound _ (le_trans (jsSlice0_length_le _ _) htr)
        · exact hbound _ htr
  · intro hfit
    simp only [truncateForAgent]
    rw [if_pos hfit]

/-- Witness for C1 at a concrete input. -/
theorem truncateForAgent_budget_witness :
    (estimateTokens (truncateForAgent [] agentClaude 0) : ℤ) ≤
      getAvailableTokens agentClaude 0 + estimateTokens truncMarker ∧
    truncateForAgent [] agentClaude 0 = [] :=
  ⟨(truncateForAgent_budget [] agentClaude 0).1 (by decide),
   (truncateForAgent_budget [] agentClaude 0).2 (by decide)⟩

/-- C1 counterexample: with `usedTokens = 7001` on the ollama config the
available budget is `-1`; JS `slice(0, -4)` then keeps (nearly all of) the
input and the marker still gets appended, so even the empty input comes
back as 4 tokens, exceeding `available + marker = 3`. -/
theorem truncateForAgent_counterexample :
    getAvailableTokens agentOllama 7001 = -1 ∧
    estimateTokens (truncateForAgent [] agentOllama 7001) = 4 ∧
    ¬ ((estimateTokens (truncateForAgent [] agentOllama 7001) : ℤ) ≤
        getAvailableTokens agentOllama 7001 + estimateTokens truncMarker) :=
  ⟨by decide, by decide, by decide⟩

/-! ### C3: compressSession counts -/

/-- C3 (amended): compaction is a no-op exactly when the number of stored
messages (`messages.length`, not the never-reset `messageCount` counter) is
at most `keepRecentMessages`; otherwise the retained messages number
`min(keepRecentMessages, stored count)` and `totalTokens` is recomputed as
the new `summaryTokens` plus the retained messages' token sum. -/
theorem compressSession_counts (s : AgentSession) (cfg : SessionConfig)
    (svc : Option (List Char)) (now : Nat) :
    (s.messages.length ≤ cfg.keepRecentMessages → compressSession s cfg svc now = s) ∧
    (cfg.keepRecentMessages < s.messages.length →
      (compressSession s cfg svc now).messages.length =
        min cfg.keepRecentMessages s.messages.length ∧
      (compressSession s cfg svc now).totalTokens =
        (compressSession s cfg svc now).summaryTokens +
          ((compressSession s cfg svc now).messages.map Message.tokens).sum) := by
  constructor
  · intro h
    simp only [compressSession]
    rw [if_pos (by rw [List.length_take]; omega)]
  · intro h
    simp only [compressSession]
    rw [if_neg (by rw [List.length_take]; omega)]
    refine ⟨?_, rfl⟩
    simp only [List.length_drop]
    omega

/-- Witness for C3: the no-op half on a 1-message session, the compaction
half on a 15-message session with `keepRecentMessages = 10`. -/
theorem compressSession_counts_witness :
    compressSession sessionSmall cfgC3 none 0 = sessionSmall ∧
    (compressSession sessionC3 cfgC3 none 0).messages.length =
      min cfgC3.keepRecentMessages sessionC3.messages.length ∧
    (compressSession sessionC3 cfgC3 none 0).totalTokens =
      (compressSession sessionC3 cfgC3 none 0).summaryTokens +
        ((compressSession sessionC3 cfgC3 none 0).messages.map Message.tokens).sum :=
  ⟨(compressSession_counts sessionSmall cfgC3 none 0).1 (by decide),
   (compressSession_counts sessionC3 cfgC3 none 0).2 (by decide)⟩

/-- C3 counterexample: a session whose `messageCount` field is 2 (≤
`keepRecentMessages = 10`) but which stores 15 messages is still compacted
— the claim's no-op condition, read on the `messageCount` field, is
false. -/
theorem compressSession_counterexample :
    sessionC3.messageCount ≤ cfgC3.keepRecentMessages ∧
    compressSession sessionC3 cfgC3 none 0 ≠ sessionC3 :=
  ⟨by decide, by decide⟩

/-! ### C5: failure fallback of summarize -/

/-- C5: for text above `maxLength`, a service failure makes `summarize`
return the first `maxLength * 4` characters of the original text followed
by the `'[...summarization failed, truncated]'` tag (after a blank line),
with `compressionRatio = 1`; the failure is absorbed (the function is
total on the `none` outcome), never propagated. -/
theorem summarize_failure_fallback (text : List Char) (ml : Option Nat) (pc : Option Bool)
    (h : resolveMaxLength ml < estimateTokens text) :
    (summarize text ml pc none).summary = text.take (resolveMaxLength ml * 4) ++ failTag ∧
    (summarize text ml pc none).compressionRatio = 1 := by
  simp only [summarize]
  rw [if_neg (by omega)]
  exact ⟨rfl, rfl⟩

/-- Witness for C5 at a concrete 2-token input with `maxLength 1`. -/
theorem summarize_failure_fallback_witness :
    (summarize text8 (some 1) none none).summary =
      text8.take (resolveMaxLength (some 1) * 4) ++ failTag ∧
    (summarize text8 (some 1) none none).compressionRatio = 1 :=
  summarize_failure_fallback text8 (some 1) none (by decide)

/-! ### C9: ratio divisor on the success path -/

/-- C9: on the success path `compressionRatio` is computed as
`originalTokens / summaryTokens` with no zero-divisor guard, and the
divisor 0 is reachable (empty service response on an over-long input, so
the restored summary estimates to 0 tokens); under the hypothesis that the
summary's token count is positive, the ratio invariant holds.  (In this
`ℚ` model `x / 0 = 0`; in JS the same expression yields `Infinity`.) -/
theorem summarize_ratio_guarded :
    ((summarize text8 (some 1) none (some [])).summaryTokens = 0 ∧
      resolveMaxLength (some 1) < estimateTokens text8) ∧
    (∀ (text : List Char) (ml : Option Nat) (pc : Option Bool) (resp : List Char),
      0 < (summarize text ml pc (some resp)).summaryTokens →
      (summarize text ml pc (some resp)).compressionRatio =
        ((summarize text ml pc (some resp)).originalTokens : ℚ) /
          ((summarize text ml pc (some resp)).summaryTokens : ℚ)) := by
  constructor
  · exact ⟨by decide, by decide⟩
  · intro text ml pc resp h
    by_cases hle : estimateTokens text ≤ resolveMaxLength ml
    · simp only [summarize, if_pos hle] at h ⊢
      rw [div_self]
      exact_mod_cast Nat.pos_iff_ne_zero.mp h
    · simp only [summarize, if_neg hle]

/-- Witness for C9's guarded half at a 1-token response. -/
theorem summarize_ratio_guarded_witness :
    (summarize text8 (some 1) none (some respB)).compressionRatio =
      ((summarize text8 (some 1) none (some respB)).originalTokens : ℚ) /
        ((summarize text8 (some 1) none (some respB)).summaryTokens : ℚ) :=
  summarize_ratio_guarded.2 text8 (some 1) none respB (by decide)

/-! ### C6: budgetedStepOutput three-tier selection -/

/-- C6 (amended): for a recorded step, `getStepOutputForBudget` follows the
three-tier selection with the third tier truncating to
`summary.length × ratio × 0.9` characters (the claim said `tokenBudget ×
ratio × 0.9`). -/
theorem getStepOutputForBudget_spec (ctx : MemoryContext) (stepId : String) (tb : Nat)
    (mem : StepOutput) (h : ctx.memory.lookup stepId = some mem) :
    getStepOutputForBudget ctx stepId tb = budgetedStepOutputSpec mem tb := by
  unfold getStepOutputForBudget budgetedStepOutputSpec
  rw [h]

/-- Witness for C6 at the concrete recorded context. -/
theorem getStepOutputForBudget_spec_witness :
    getStepOutputForBudget ctxC6 stepOne 10 = budgetedStepOutputSpec memC6 10 :=
  getStepOutputForBudget_spec ctxC6 stepOne 10 memC6 (by decide)

/-- C6 counterexample: with a 100-character summary of 25 tokens and a
budget of 10 tokens, the code keeps `floor(100 × (10/25) × 0.9) = 36`
characters; the claim's formula `tokenBudget × ratio × 0.9` would keep
`floor(10 × (10/25) × 0.9) = 3` characters, a different output. -/
theorem getStepOutputForBudget_counterexample :
    getStepOutputForBudget ctxC6 stepOne 10 = List.replicate 36 'a' ++ truncMarker ∧
    getStepOutputForBudget ctxC6 stepOne 10 ≠ List.replicate 3 'a' ++ truncMarker :=
  ⟨by decide, by decide⟩

/-! ### C10: searchMethod depends only on the provider flag -/

/-- C10: `retrieve` reports `'vector'` exactly when the cached provider is
`'ollama'` and `'fts5'` otherwise, for every store behaviour (`searchFn`,
`recentFn`) and options — vector-index absence, keyword fallback or
recency-only backfill never change it, and `retrieve` never reports
`'recency'`. -/
theorem retrieve_searchMethod (p : EmbeddingProvider)
    (searchFn : Option MemoryType → Nat → List SearchResult)
    (recentFn : Option MemoryType → Nat → List MemoryItem) (o : RetrievalOptions) :
    (retrieve p searchFn recentFn o).searchMethod =
      (if p = EmbeddingProvider.ollama then SearchMethod.vector else SearchMethod.fts5) ∧
    (retrieve p searchFn recentFn o).searchMethod ≠ SearchMethod.recency := by
  constructor
  · rfl
  · cases p
    · intro hc
      simp [retrieve] at hc
    · intro hc
      simp [retrieve] at hc

/-! ### C8: estimateTokens is ceiling division -/

/-- C8: for all text, the token estimate equals the ceiling of the
character length divided by 4, and the estimate of the empty string is
0. -/
theorem estimateTokens_ceil (s : List Char) :
    (estimateTokens s : ℤ) = ⌈(s.length : ℚ) / 4⌉ ∧ estimateTokens [] = 0 := by
  constructor
  · rw [ceil_quarter]
    unfold estimateTokens
    split
    · next h => rw [h]
    · rfl
  · rfl

/-! ### C2: code-block preservation through summarize -/

/-- A replacement string without `'$'` passes through JS `$`-substitution
unchanged. -/
theorem jsSubstAux_no_dollar (matched pre post : List Char) :
    ∀ repl : List Char, '$' ∉ repl → jsSubstAux matched pre post repl = repl := by
  intro repl
  induction repl with
  | nil =>
    intro _
    rfl
  | cons c rest ih =>
    intro h
    have hc : ¬ c = '$' := fun hc => h (by rw [← hc]; exact List.mem_cons_self c rest)
    unfold jsSubstAux
    rw [if_neg hc, ih (fun hm => h (List.mem_cons_of_mem c hm))]

/-- `replFirstAux` keeps a dollar-free replacement whenever the pattern
occurs. -/
theorem replFirstAux_keeps (pat repl : List Char) (hd : '$' ∉ repl) :
    ∀ s pre : List Char, pat <:+: s → pat ≠ [] →
      repl <:+: replFirstAux pat repl pre s := by
  intro s
  induction s with
  | nil =>
    intro pre h hne
    exact absurd (List.infix_nil.mp h) hne
  | cons c rest ih =>
    intro pre h hne
    unfold replFirstAux
    split
    · rw [jsSubstAux_no_dollar _ _ _ repl hd]
      exact ⟨[], (c :: rest).drop pat.length, rfl⟩
    · next hpre =>
      obtain ⟨u, v, huv⟩ := ih (c :: pre) ((List.infix_cons_iff.mp h).resolve_left hpre) hne
      exact ⟨c :: u, v, by rw [List.cons_append, List.cons_append, huv]⟩

/-- JS first-occurrence `replace` keeps a dollar-free replacement whenever
the pattern occurs in the subject.  (A replacement containing `$$`, `$&`,
a `$` + backtick or a `$` + apostrophe is rewritten by `$`-substitution
and need not survive byte-for-byte.) -/
theorem jsReplaceFirst_keeps (s pat repl : List Char) (h : pat <:+: s) (hd : '$' ∉ repl) :
    repl <:+: jsReplaceFirst s pat repl := by
  unfold jsReplaceFirst
  split
  · rw [jsSubstAux_no_dollar _ _ _ repl hd]
    exact ⟨[], s, rfl⟩
  · next hne => exact replFirstAux_keeps pat repl hd s [] h hne

/-- C2 (amended): for an input with exactly one fenced code block that
contains no `'$'` character, `preserveCode` enabled and the input above
`maxLength`, the block appears byte-for-byte in the summary whenever the
trimmed service response contains the positional placeholder
`[CODE_BLOCK_0]`.  Responses that drop the placeholder lose the block (see
the counterexample), and a block containing JS replacement patterns
(`$$`, `$&`, `$` + backtick, `$` + apostrophe) is mangled by `replace`'s
`$`-substitution during restoration. -/
theorem summarize_single_block (text resp : List Char) (ml : Option Nat) (pc : Option Bool)
    (b : List Char) (hpc : resolvePreserveCode pc = true)
    (hb : (extractCodeBlocks text).2 = [b])
    (hlong : resolveMaxLength ml < estimateTokens text)
    (hph : codePlaceholder 0 <:+: jsTrim resp)
    (hdol : '$' ∉ b) :
    b <:+: (summarize text ml pc (some resp)).summary := by
  have hsum : (summarize text ml pc (some resp)).summary =
      jsReplaceFirst (jsTrim resp) (codePlaceholder 0) b := by
    simp only [summarize]
    rw [if_neg (by omega), hpc, hb]
    simp [restoreCodeBlocks, restoreAux]
  rw [hsum]
  exact jsReplaceFirst_keeps _ _ _ hph hdol

/-- Witness for C2 at the concrete one-block input and a
placeholder-preserving response. -/
theorem summarize_single_block_witness :
    c2text <:+: (summarize c2text (some 1) none (some c2respKept)).summary :=
  summarize_single_block c2text c2respKept (some 1) none c2text (by decide) (by decide)
    (by decide) (by decide) (by decide)

/-- C2 counterexample: the service may return text without the
placeholder (here `"ok"`); the restore step then finds nothing to replace
and the code block is absent from the summary. -/
theorem summarize_code_block_counterexample :
    (extractCodeBlocks c2text).2 = [c2text] ∧
    (summarize c2text (some 1) none (some c2respLost)).summary = c2respLost ∧
    ¬ c2text <:+: (summarize c2text (some 1) none (some c2respLost)).summary :=
  ⟨by decide, by decide, by decide⟩

/-! ### C4: retrieval token budget -/

/-- The packing loop never exceeds the ceiling it starts under. -/
theorem packAux_le (maxT : Nat) (l : List SearchResult) :
    ∀ tot : Nat, tot ≤ maxT → (packAux maxT l tot).2 ≤ maxT := by
  induction l with
  | nil =>
    intro tot h
    simpa [packAux] using h
  | cons r rest ih =>
    intro tot h
    simp only [packAux]
    split
    · simpa using h
    · next h2 => simpa using ih _ (by omega)

/-- The packing loop's returned total is the running start plus the
accepted items' token sum. -/
theorem packAux_sum (maxT : Nat) (l : List SearchResult) :
    ∀ tot : Nat, (packAux maxT l tot).2 =
      tot + (((packAux maxT l tot).1).map (fun it => retrieverEstimateTokens it.content)).sum := by
  induction l with
  | nil =>
    intro tot
    simp [packAux]
  | cons r rest ih =>
    intro tot
    simp only [packAux]
    split
    · simp
    · simp only [List.map_cons, List.sum_cons]
      rw [ih]
      omega

/-- The packing loop accepts a prefix of the candidates, stopping exactly
at the first item that would overflow. -/
theorem packAux_greedy (maxT : Nat) (l : List SearchResult) :
    ∀ tot : Nat, ∃ k, (packAux maxT l tot).1 = (l.take k).map SearchResult.item ∧
      ∀ nxt, l[k]? = some nxt →
        maxT < (packAux maxT l tot).2 + retrieverEstimateTokens nxt.item.content := by
  induction l with
  | nil =>
    intro tot
    refine ⟨0, by simp [packAux], ?_⟩
    intro nxt hn
    simp at hn
  | cons r rest ih =>
    intro tot
    by_cases h : maxT < tot + retrieverEstimateTokens r.item.content
    · refine ⟨0, by simp [packAux, h], ?_⟩
      intro nxt hn
      rw [List.getElem?_cons_zero] at hn
      injection hn with hr
      subst hr
      simpa [packAux, h] using h
    · obtain ⟨k, hk1, hk2⟩ := ih (tot + retrieverEstimateTokens r.item.content)
      refine ⟨k + 1, ?_, ?_⟩
      · simp only [packAux, if_neg h, List.take_succ_cons, List.map_cons]
        rw [hk1]
      · intro nxt hn
        rw [List.getElem?_cons_succ] at hn
        have h3 := hk2 nxt hn
        simpa [packAux, if_neg h] using h3

/-- C4: for every provider, store behaviour and options, the returned item
set's cumulative estimated token count never exceeds the requested
`maxTokens` ceiling (default 4000), `totalTokens` equals that cumulative
sum, and the items are a greedy prefix of the ranked candidates, stopping
at the first item that would exceed the ceiling. -/
theorem retrieve_token_budget (p : EmbeddingProvider)
    (searchFn : Option MemoryType → Nat → List SearchResult)
    (recentFn : Option MemoryType → Nat → List MemoryItem) (o : RetrievalOptions) :
    (retrieve p searchFn recentFn o).totalTokens ≤ o.maxTokens.getD 4000 ∧
    (retrieve p searchFn recentFn o).totalTokens =
      (((retrieve p searchFn recentFn o).items).map
        (fun it => retrieverEstimateTokens it.content)).sum ∧
    ∃ k, (retrieve p searchFn recentFn o).items =
        ((rankedCandidates searchFn recentFn o).take k).map SearchResult.item ∧
      ∀ nxt, (rankedCandidates searchFn recentFn o)[k]? = some nxt →
        o.maxTokens.getD 4000 <
          (retrieve p searchFn recentFn o).totalTokens +
            retrieverEstimateTokens nxt.item.content := by
  refine ⟨?_, ?_, ?_⟩
  · exact packAux_le (o.maxTokens.getD 4000) (rankedCandidates searchFn recentFn o) 0
      (Nat.zero_le _)
  · have h2 := packAux_sum (o.maxTokens.getD 4000) (rankedCandidates searchFn recentFn o) 0
    simpa using h2
  · exact packAux_greedy (o.maxTokens.getD 4000) (rankedCandidates searchFn recentFn o) 0

/-- Witness for C4 on an empty store with default options. -/
theorem retrieve_token_budget_witness :
    (retrieve EmbeddingProvider.fts5 (fun _ _ => []) (fun _ _ => [])
      ⟨none, none, none, none, none⟩).totalTokens ≤ 4000 :=
  (retrieve_token_budget EmbeddingProvider.fts5 (fun _ _ => []) (fun _ _ => [])
    ⟨none, none, none, none, none⟩).1

/-! ### C7: chunking — jsLastIndexOf characterization -/

/-- Every result of the `lastIndexOf` scan is either the carried `best` or
an occurrence position within the limit. -/
theorem lastOccAux_cases (pat : List Char) (limit : Nat) :
    ∀ (s : List Char) (pos : Nat) (best : Int),
      lastOccAux pat limit s pos best = best ∨
      ∃ j : Nat, lastOccAux pat limit s pos best = ((pos + j : Nat) : Int) ∧
        pos + j ≤ limit ∧ pat <+: s.drop j := by
  intro s
  induction s with
  | nil =>
    intro pos best
    unfold lastOccAux
    split
    · next hc =>
      refine Or.inr ⟨0, by norm_num, by omega, ?_⟩
      rw [hc.2]
      exact List.nil_prefix
    · exact Or.inl rfl
  | cons c rest ih =>
    intro pos best
    simp only [lastOccAux]
    rcases ih (pos + 1) (if pos ≤ limit ∧ pat <+: (c :: rest) then (pos : Int) else best) with
      h | ⟨j, hj1, hj2, hj3⟩
    · rw [h]
      split
      · next hc =>
        refine Or.inr ⟨0, by norm_num, by omega, by simpa using hc.2⟩
      · exact Or.inl rfl
    · refine Or.inr ⟨j + 1, ?_, by omega, by simpa [List.drop_succ_cons] using hj3⟩
      rw [hj1]
      congr 1
      omega

/-- `jsLastIndexOf` is `-1` or an occurrence position within the limit. -/
theorem jsLastIndexOf_cases (s pat : List Char) (limit : Nat) :
    jsLastIndexOf s pat limit = -1 ∨
    ∃ j : Nat, jsLastIndexOf s pat limit = (j : Int) ∧ j ≤ limit ∧ pat <+: s.drop j := by
  rcases lastOccAux_cases pat limit s 0 (-1) with h | ⟨j, h1, h2, h3⟩
  · exact Or.inl h
  · exact Or.inr ⟨j, by simpa using h1, by omega, h3⟩

/-- The scan never forgets a better carried candidate. -/
theorem lastOccAux_ge_best (pat : List Char) (hne : pat ≠ []) (limit : Nat) :
    ∀ (s : List Char) (pos : Nat) (best : Int), best ≤ (pos : Int) →
      best ≤ lastOccAux pat limit s pos best := by
  intro s
  induction s with
  | nil =>
    intro pos best h
    unfold lastOccAux
    split
    · next hc => exact absurd hc.2 hne
    · exact le_refl best
  | cons c rest ih =>
    intro pos best h
    simp only [lastOccAux]
    split
    · exact le_trans h (ih (pos + 1) (pos : Int) (by push_cast; omega))
    · exact ih (pos + 1) best (by push_cast; push_cast at h; omega)

/-- The scan result dominates every occurrence position within the
limit. -/
theorem lastOccAux_ge_occ (pat : List Char) (hne : pat ≠ []) (limit : Nat) :
    ∀ (s : List Char) (pos : Nat) (best : Int) (k : Nat),
      best ≤ (pos : Int) → pos ≤ k → k ≤ limit → pat <+: s.drop (k - pos) →
      (k : Int) ≤ lastOccAux pat limit s pos best := by
  intro s
  induction s with
  | nil =>
    intro pos best k h1 h2 h3 h4
    rw [List.drop_nil] at h4
    exact absurd (List.prefix_nil.mp h4) hne
  | cons c rest ih =>
    intro pos best k h1 h2 h3 h4
    simp only [lastOccAux]
    by_cases hk : k = pos
    · subst hk
      rw [if_pos ⟨h3, by simpa using h4⟩]
      exact lastOccAux_ge_best pat hne limit rest (k + 1) (k : Int) (by push_cast; omega)
    · have h4' : pat <+: rest.drop (k - (pos + 1)) := by
        have heq : k - pos = (k - (pos + 1)) + 1 := by omega
        rw [heq, List.drop_succ_cons] at h4
        exact h4
      refine ih (pos + 1) _ k ?_ (by omega) h3 h4'
      split
      · push_cast
        omega
      · push_cast
        push_cast at h1
        omega

/-- `jsLastIndexOf` dominates every occurrence position within the
limit. -/
theorem jsLastIndexOf_ge (s pat : List Char) (limit : Nat) (hne : pat ≠ []) (k : Nat)
    (hk : k ≤ limit) (hocc : pat <+: s.drop k) : (k : Int) ≤ jsLastIndexOf s pat limit :=
  lastOccAux_ge_occ pat hne limit s 0 (-1) k (by norm_num) (Nat.zero_le k) hk
    (by simpa using hocc)

/-! ### C7: chunking — take/trim lemmas -/

/-- Taking up to the end of an occurrence splits the prefix off exactly. -/
theorem take_occurrence (s pat : List Char) (j : Nat) (h : pat <+: s.drop j) :
    s.take (j + pat.length) = s.take j ++ pat := by
  obtain ⟨t, ht⟩ := h
  by_cases hj : j ≤ s.length
  · conv_lhs => rw [← List.take_append_drop j s]
    rw [List.take_append_eq_append_take]
    have hlen : (s.take j).length = j := by
      rw [List.length_take]
      omega
    rw [hlen]
    congr 1
    · exact List.take_of_length_le (by omega)
    · rw [show j + pat.length - j = pat.length by omega, ← ht, List.take_left]
  · have hd : s.drop j = [] := List.drop_eq_nil_of_le (by omega)
    rw [hd] at ht
    have hp : pat = [] := by
      cases pat with
      | nil => rfl
      | cons a b => simp at ht
    subst hp
    simp

/-- JS `trim` ignores a trailing whitespace character. -/
theorem jsTrim_append_ws (l : List Char) (w : Char) (hw : isJsWs w = true) :
    jsTrim (l ++ [w]) = jsTrim l := by
  unfold jsTrim
  by_cases h : l.dropWhile isJsWs = []
  · have hl : ∀ c ∈ l, isJsWs c = true := List.dropWhile_eq_nil_iff.mp h
    have h2 : (l ++ [w]).dropWhile isJsWs = [] := by
      rw [List.dropWhile_eq_nil_iff]
      intro x hx
      rcases List.mem_append.mp hx with hx | hx
      · exact hl x hx
      · rw [List.mem_singleton.mp hx]
        exact hw
    rw [h, h2]
  · rw [List.dropWhile_append, if_neg (by simpa [List.isEmpty_iff] using h)]
    rw [List.reverse_append, List.reverse_singleton, List.singleton_append,
      List.dropWhile_cons, if_pos hw]

/-- JS `trim` is the identity on strings with no whitespace at all. -/
theorem jsTrim_eq_self (l : List Char) (h : ∀ c ∈ l, isJsWs c = false) : jsTrim l = l := by
  have h1 : l.dropWhile isJsWs = l := by
    cases l with
    | nil => rfl
    | cons a t =>
      rw [List.dropWhile_cons, if_neg (by rw [h a (by simp)]; simp)]
  unfold jsTrim
  rw [h1]
  have h2 : l.reverse.dropWhile isJsWs = l.reverse := by
    cases hr : l.reverse with
    | nil => rfl
    | cons a t =>
      have ha : a ∈ l := by
        rw [← List.mem_reverse, hr]
        simp
      rw [List.dropWhile_cons, if_neg (by rw [h a ha]; simp)]
  rw [h2, List.reverse_reverse]

/-! ### C7: chunking — chunk-size bound -/

/-- One emitted chunk never exceeds `chunkChars + 1` characters: a
paragraph cut ends in `'\n\n'` (both trimmed away, ≤ `chunkChars`), a
sentence cut ends in `'. '` (the space trimmed away, ≤ `chunkChars + 1` —
the cut can sit exactly at the window edge), a hard cut is `chunkChars`. -/
theorem chunkStep_length_le (cc : Nat) (rem : List Char) :
    (chunkStep cc rem).length ≤ cc + 1 := by
  unfold chunkStep chunkBreak
  split
  · next h =>
    rcases jsLastIndexOf_cases rem ['\n', '\n'] cc with hc | ⟨j, hj1, hj2, hj3⟩
    · rw [hc] at h
      exfalso
      omega
    · rw [hj1]
      have hs : jsSlice0 rem ((j : Int) + 2) = rem.take (j + 2) := by
        unfold jsSlice0
        rw [if_neg (by omega)]
        congr 1
      rw [hs]
      have ht : rem.take (j + 2) = rem.take j ++ ['\n', '\n'] :=
        take_occurrence rem ['\n', '\n'] j hj3
      rw [ht, show rem.take j ++ ['\n', '\n'] = (rem.take j ++ ['\n']) ++ ['\n'] by simp]
      rw [jsTrim_append_ws _ '\n' (by decide), jsTrim_append_ws _ '\n' (by decide)]
      have h5 := jsTrim_length_le (rem.take j)
      have h6 := List.length_take j rem
      omega
  · split
    · next h =>
      rcases jsLastIndexOf_cases rem ['.', ' '] cc with hc | ⟨j, hj1, hj2, hj3⟩
      · rw [hc] at h
        exfalso
        omega
      · rw [hj1]
        have hs : jsSlice0 rem ((j : Int) + 2) = rem.take (j + 2) := by
          unfold jsSlice0
          rw [if_neg (by omega)]
          congr 1
        rw [hs]
        have ht : rem.take (j + 2) = rem.take j ++ ['.', ' '] :=
          take_occurrence rem ['.', ' '] j hj3
        rw [ht, show rem.take j ++ ['.', ' '] = (rem.take j ++ ['.']) ++ [' '] by simp]
        rw [jsTrim_append_ws _ ' ' (by decide)]
        have h5 := jsTrim_length_le (rem.take j ++ ['.'])
        have h6 : (rem.take j ++ ['.']).length = (rem.take j).length + 1 := by
          rw [List.length_append]
          rfl
        have h7 := List.length_take j rem
        omega
    · have hs : jsSlice0 rem ((cc : Nat) : Int) = rem.take cc := by
        unfold jsSlice0
        rw [if_neg (by omega)]
        congr 1
      rw [hs]
      have h5 := jsTrim_length_le (rem.take cc)
      have h6 := List.length_take cc rem
      omega

/-- The loop equation of `chunkLoop` in the looping case. -/
theorem chunkLoop_step (cc : Nat) (hcc : 0 < cc) (rem : List Char)
    (h0 : ¬ rem.length = 0) (h1 : ¬ rem.length ≤ cc) :
    chunkLoop cc hcc rem =
      chunkStep cc rem :: chunkLoop cc hcc (jsTrim (jsSliceFrom rem (chunkBreak cc rem))) := by
  rw [chunkLoop]
  rw [dif_neg h0, dif_neg h1]

/-- Every chunk the loop emits has at most `chunkChars + 1` characters. -/
theorem chunkLoop_length_le (cc : Nat) (hcc : 0 < cc) :
    ∀ (n : Nat) (rem : List Char), rem.length ≤ n →
      ∀ c ∈ chunkLoop cc hcc rem, c.length ≤ cc + 1 := by
  intro n
  induction n with
  | zero =>
    intro rem hr c hm
    rw [chunkLoop, dif_pos (by omega)] at hm
    simp at hm
  | succ n ih =>
    intro rem hr c hm
    by_cases h0 : rem.length = 0
    · rw [chunkLoop, dif_pos h0] at hm
      simp at hm
    · by_cases h1 : rem.length ≤ cc
      · rw [chunkLoop, dif_neg h0, dif_pos h1] at hm
        rw [List.mem_singleton.mp hm]
        omega
      · rw [chunkLoop_step cc hcc rem h0 h1] at hm
        rcases List.mem_cons.mp hm with rfl | hm2
        · exact chunkStep_length_le cc rem
        · have hlt := chunkShrink rem (chunkBreak cc rem) (chunkBreakPos cc hcc rem) h0
          exact ih (jsTrim (jsSliceFrom rem (chunkBreak cc rem))) (by omega) c hm2

/-- C7 (amended): `chunk` terminates (it is a total function, defined by
well-founded recursion on the shrinking remainder) and returns a finite
list of pieces, each of estimated token count at most `chunkSize + 1`.
The claim's bound of `chunkSize` exactly can be exceeded by one token when
a sentence break sits exactly at the chunk window's edge (see the
counterexample). -/
theorem splitIntoChunks_token_bound (text : List Char) (agent : String) :
    ∀ c ∈ splitIntoChunks text agent,
      estimateTokens c ≤ (getTokenConfig agent).chunkSize + 1 := by
  intro c hm
  unfold splitIntoChunks at hm
  split at hm
  · next h =>
    rw [List.mem_singleton.mp hm]
    unfold estimateTokens
    split <;> omega
  · next h =>
    have hlen := chunkLoop_length_le ((getTokenConfig agent).chunkSize * 4)
      (Nat.mul_pos (getTokenConfigChunkPos agent) (by decide)) text.length text (le_refl _) c hm
    unfold estimateTokens
    split <;> omega

/-- Witness for C7 at a 2-character text on the claude config. -/
theorem splitIntoChunks_token_bound_witness :
    ['a', 'b'] ∈ splitIntoChunks ['a', 'b'] agentClaude ∧
    estimateTokens ['a', 'b'] ≤ (getTokenConfig agentClaude).chunkSize + 1 :=
  ⟨by decide, splitIntoChunks_token_bound ['a', 'b'] agentClaude ['a', 'b'] (by decide)⟩

/-- C7 counterexample: on the ollama config (`chunkSize = 2000`,
`chunkChars = 8000`), a text of 8000 `'a'`s followed by `'. b'` has its
sentence break found exactly at position 8000; the first chunk keeps 8001
characters after the trailing space is trimmed, which estimates to 2001
tokens — one over the claimed `chunkSize` bound. -/
theorem splitIntoChunks_counterexample :
    (getTokenConfig agentOllama).chunkSize = 2000 ∧
    2000 < estimateTokens ((splitIntoChunks chunkCounterText agentOllama).headI) := by
  refine ⟨by decide, ?_⟩
  have hlen : chunkCounterText.length = 8003 := by
    unfold chunkCounterText
    rw [List.length_append, List.length_replicate]
    rfl
  have hdrop : chunkCounterText.drop 8000 = ['.', ' ', 'b'] := by
    have h := List.drop_left (List.replicate 8000 'a') ['.', ' ', 'b']
    rw [List.length_replicate] at h
    exact h
  have hocc : ['.', ' '] <+: chunkCounterText.drop 8000 := by
    rw [hdrop]
    exact ⟨['b'], rfl⟩
  have hnoNl : ∀ j : Nat, ¬ (['\n', '\n'] <+: chunkCounterText.drop j) := by
    intro j hpre
    have h1 : '\n' ∈ chunkCounterText.drop j := hpre.subset (by simp)
    have h2 : '\n' ∈ chunkCounterText := List.drop_subset j chunkCounterText h1
    rw [chunkCounterText] at h2
    rcases List.mem_append.mp h2 with hm | hm
    · exact absurd (List.mem_replicate.mp hm).2 (by decide)
    · exact absurd hm (by decide)
  have hsB : jsLastIndexOf chunkCounterText ['.', ' '] 8000 = 8000 := by
    have hge := jsLastIndexOf_ge chunkCounterText ['.', ' '] 8000 (by decide) 8000
      (le_refl _) hocc
    rcases jsLastIndexOf_cases chunkCounterText ['.', ' '] 8000 with h | ⟨j, h1, h2, h3⟩
    · rw [h] at hge
      exact absurd hge (by omega)
    · rw [h1] at hge ⊢
      omega
  have hnone : ¬ (2 * jsLastIndexOf chunkCounterText ['\n', '\n'] 8000 > ((8000 : Nat) : Int)) := by
    intro hgt
    rcases jsLastIndexOf_cases chunkCounterText ['\n', '\n'] 8000 with h | ⟨j, h1, h2, h3⟩
    · rw [h] at hgt
      omega
    · exact hnoNl j h3
  have hcb : chunkBreak 8000 chunkCounterText = 8002 := by
    unfold chunkBreak
    rw [if_neg hnone, hsB, if_pos (by omega)]
    norm_num
  have hhead : (splitIntoChunks chunkCounterText agentOllama).headI =
      chunkStep ((getTokenConfig agentOllama).chunkSize * 4) chunkCounterText := by
    unfold splitIntoChunks
    rw [if_neg (show ¬ chunkCounterText.length ≤ (getTokenConfig agentOllama).chunkSize * 4 by
      rw [hlen]; decide)]
    rw [chunkLoop_step _ _ _ (by rw [hlen]; omega) (by rw [hlen]; decide)]
    rw [List.headI_cons]
  rw [hhead]
  have hcc : (getTokenConfig agentOllama).chunkSize * 4 = 8000 := by decide
  rw [hcc]
  have hstep : chunkStep 8000 chunkCounterText = List.replicate 8000 'a' ++ ['.'] := by
    unfold chunkStep
    rw [hcb]
    have hs : jsSlice0 chunkCounterText (8002 : Int) = chunkCounterText.take 8002 := by
      unfold jsSlice0
      rw [if_neg (by omega)]
      congr 1
    rw [hs]
    have ht : chunkCounterText.take 8002 = chunkCounterText.take 8000 ++ ['.', ' '] :=
      take_occurrence chunkCounterText ['.', ' '] 8000 hocc
    have htake : chunkCounterText.take 8000 = List.replicate 8000 'a' := by
      have h := List.take_left (List.replicate 8000 'a') ['.', ' ', 'b']
      rw [List.length_replicate] at h
      exact h
    rw [ht, htake,
      show List.replicate 8000 'a' ++ ['.', ' '] = (List.replicate 8000 'a' ++ ['.']) ++ [' ']
        from (List.append_assoc (List.replicate 8000 'a') ['.'] [' ']).symm]
    rw [jsTrim_append_ws _ ' ' (by decide)]
    apply jsTrim_eq_self
    intro c hcmem
    rcases List.mem_append.mp hcmem with hm | hm
    · rw [(List.mem_replicate.mp hm).2]
      decide
    · rw [List.mem_singleton.mp hm]
      decide
  rw [hstep]
  unfold estimateTokens
  rw [if_neg (by rw [List.length_append, List.length_replicate]; omega)]
  rw [List.length_append, List.length_replicate]
  norm_num

